import Mathlib

/-!
Verification of the audio-visualizer core (`audio_visualizer.py`) against its
specification.

The Python source is shallowly embedded:
* float arithmetic is modelled over `ℚ` where the relevant computations are
  rational (band means, beat-detector energies/threshold, waveform scaling),
  and over `ℝ`/`ℂ` where the source uses transcendental functions (Hamming
  window, DFT, `log10`, `cos`/`sin` for particle velocities);
* `collections.deque(maxlen=m)` becomes a list with `pushMax m` (append to the
  right, drop from the left when longer than `m`);
* `numpy` reductions (`np.mean`, `np.sum`) become explicit list sums and
  divisions; `np.mean(..., axis=0)` over a deque of equal-length vectors
  becomes `meanSpectra`;
* the pygame screen is an external sink: drawing calls do not mutate core
  state, so the frame-loop model (`tick`) tracks exactly the fields the Python
  loop mutates (`freq_smooth`, beat state, `hue`, `particles`, `mode`,
  `paused`).  The unused `amplitude_history` field is omitted.  `pygame.quit`
  events only end the loop and touch no core state.
-/

/-- `deque(maxlen=m)` append: add `x` on the right, drop from the left whatever
exceeds `m` entries. -/
def pushMax {α : Type} (m : ℕ) (l : List α) (x : α) : List α :=
  (l ++ [x]).drop ((l ++ [x]).length - m)

/-- `np.mean` of a one-dimensional sequence: sum divided by length. -/
def npMean {α : Type} [DivisionRing α] (l : List α) : α :=
  l.sum / (l.length : α)

/-- `np.mean(hist, axis=0)` for a nonempty list of equal-length vectors:
entry `k` of the result is the mean over the vectors' entries at `k`.  The
result length is read off the first vector, as numpy does for a stacked
array. -/
def meanSpectra {α : Type} [DivisionRing α] (hist : List (List α)) : List α :=
  match hist with
  | [] => []
  | v :: _ =>
    (List.range v.length).map (fun k =>
      (hist.map (fun w => w.getD k 0)).sum / (hist.length : α))

/-- Python `int()` on a rational: truncation toward zero. -/
def pyInt (q : ℚ) : ℤ :=
  if q < 0 then -((-q).floor) else q.floor

/-- `AudioVisualizer.get_frequency_bands` (lines 115-126): split a series into
`num_bands` bands; `band_size = len(fft_data) // num_bands`; band `i` is
`np.mean(fft_data[i*band_size : (i+1)*band_size])`. -/
def get_frequency_bands {α : Type} [DivisionRing α] (fft_data : List α)
    (num_bands : ℕ) : List α :=
  (List.range num_bands).map (fun i =>
    npMean ((fft_data.drop (i * (fft_data.length / num_bands))).take
      (fft_data.length / num_bands)))

/-- The beat detector's mutable state: `beat_history` (a `deque(maxlen=20)`)
and `beat_cooldown`.  The field `beat_threshold` is the constant `1.3`. -/
structure BeatState (α : Type) where
  history : List α
  cooldown : ℤ
  deriving Repr, DecidableEq

/-- State of `AudioVisualizer.__init__`: empty history, cooldown `0`. -/
def initBeatState (α : Type) : BeatState α := ⟨[], 0⟩

/-- `AudioVisualizer.detect_beat` (lines 94-113).  `bass_range =
int(200 * CHUNK / RATE) = int(200*2048/44100) = 9`; `bass_energy` is the sum of
the first `bass_range` spectrum values; the energy is appended to the history
(before the cooldown check); if `cooldown > 0` it is decremented and the call
returns `False`; otherwise a beat fires iff `bass_energy > avg * 1.3`, setting
the cooldown to `10`. -/
def detect_beat {α : Type} [LinearOrderedField α] (st : BeatState α)
    (fft_data : List α) : Bool × BeatState α :=
  let bass_range : ℕ := 200 * 2048 / 44100
  let bass_energy : α := (fft_data.take bass_range).sum
  let hist := pushMax 20 st.history bass_energy
  let avg_energy : α := npMean hist
  if 0 < st.cooldown then (false, ⟨hist, st.cooldown - 1⟩)
  else if avg_energy * (13 / 10) < bass_energy then (true, ⟨hist, 10⟩)
  else (false, ⟨hist, st.cooldown⟩)

/-- Run `detect_beat` over a list of spectra, collecting the returned flags. -/
def runDetect {α : Type} [LinearOrderedField α] (st : BeatState α) :
    List (List α) → List Bool
  | [] => []
  | f :: fs => (detect_beat st f).1 :: runDetect (detect_beat st f).2 fs

/-- Run `detect_beat` over a list of spectra, keeping the final state. -/
def runState {α : Type} [LinearOrderedField α] (st : BeatState α)
    (fs : List (List α)) : BeatState α :=
  fs.foldl (fun s f => (detect_beat s f).2) st

/-- A spectrum whose bass energy (the sum of its first 9 values) is `e`. -/
def bassSpec (e : ℚ) : List ℚ := [e]

/-- `AudioVisualizer.draw_mode_3_waveform`, point construction (lines 188-196):
`step = len(audio_data) // WIDTH`; for `i in range(0, len(audio_data), step)`
the point `(i // step, HEIGHT//2 + int(audio_data[i]/32768.0 * (HEIGHT//3)))`
is appended.  Python's `range` with `step = 0` raises, so the model returns
`[]` in that (unreachable, since `len = 2048 ≥ width` in every call) case. -/
def draw_mode_3_points (audio_data : List ℤ) (width height : ℕ) :
    List (ℕ × ℤ) :=
  let step := audio_data.length / width
  if step = 0 then []
  else
    (List.range ((audio_data.length + step - 1) / step)).map (fun j =>
      (j, (height / 2 : ℕ) +
        pyInt ((audio_data.getD (j * step) 0 : ℚ) / 32768 * ((height / 3 : ℕ) : ℚ))))

/-- A mode-5 particle (lines 246-253): position, velocity, integer life,
hue tag. -/
structure Particle where
  x : ℝ
  y : ℝ
  vx : ℝ
  vy : ℝ
  life : ℤ
  hue : ℝ

namespace ParticleSystem

/-- One physics step of the update loop body (lines 256-260): integrate
position by the (pre-gravity) velocity, add gravity `0.2` to `vy`, decrement
life. -/
def stepP (p : Particle) : Particle :=
  { x := p.x + p.vx, y := p.y + p.vy, vx := p.vx, vy := p.vy + 0.2,
    life := p.life - 1, hue := p.hue }

/-- The particle update pass (lines 256-264): every particle is stepped, and
particles whose decremented life is `≤ 0` are removed. -/
def update (ps : List Particle) : List Particle :=
  (ps.map stepP).filter (fun p => 0 < p.life)

end ParticleSystem

/-! ### The spectral analyzer over `ℝ`/`ℂ`

`analyze_audio` (lines 73-92) uses `np.hamming`, `np.fft.fft`, `np.abs` and
`np.log10`; these are modelled over the reals. -/

/-- `np.hamming(M)` at index `j`: `0.54 - 0.46*cos(2*pi*j/(M-1))`. -/
noncomputable def hamming (M : ℕ) (j : ℕ) : ℝ :=
  0.54 - 0.46 * Real.cos (2 * Real.pi * j / (M - 1))

/-- The discrete Fourier transform (`np.fft.fft`) of an `N`-point signal at
frequency index `k`. -/
noncomputable def dft (x : ℕ → ℂ) (N : ℕ) (k : ℕ) : ℂ :=
  ∑ j ∈ Finset.range N, x j * Complex.exp (-(2 * Real.pi * Complex.I * j * k) / N)

/-- The logarithmic compression of line 86: `log10(magnitude + 1) * 20`. -/
noncomputable def logCompress (magnitude : ℝ) : ℝ :=
  Real.logb 10 (magnitude + 1) * 20

/-- The compressed, pre-smoothing spectrum value at index `k` for a frame given
as a function `ℕ → ℝ` (lines 76-86): window by `hamming 2048`, take the DFT
magnitude, normalize by `CHUNK/2 = 1024`, log-compress. -/
noncomputable def preSmoothSpectrum (frame : ℕ → ℝ) (k : ℕ) : ℝ :=
  logCompress (Complex.abs (dft (fun j => ((frame j * hamming 2048 j : ℝ) : ℂ)) 2048 k) / 1024)

/-- The compressed, pre-smoothing spectrum of an int16 frame, as a list of the
first `CHUNK//2 = 1024` values (line 80 keeps `fft[:CHUNK//2]`). -/
noncomputable def compressedSpectrum (frame : List ℤ) : List ℝ :=
  (List.range 1024).map (fun k =>
    preSmoothSpectrum (fun j => ((frame.getD j 0 : ℤ) : ℝ)) k)

/-! ### The frame loop state machine (`AudioVisualizer.run`, lines 275-328) -/

/-- An input event of the closed set handled in lines 281-291.  `quit` (window
close or ESC) only ends the loop; `togglePause` is SPACE; `selectMode k` is a
key `1`-`5`, carried as `k : Fin 5` with selected mode `k.val + 1`. -/
inductive Event where
  | quit : Event
  | togglePause : Event
  | selectMode : Fin 5 → Event
  deriving Repr, DecidableEq

/-- The core mutable state of `AudioVisualizer` touched by the frame loop. -/
structure VizState where
  mode : ℕ
  paused : Bool
  hue : ℝ
  beat_history : List ℝ
  beat_detected : Bool
  beat_cooldown : ℤ
  freq_smooth : List (List ℝ)
  particles : List Particle

/-- The state set up by `AudioVisualizer.__init__` (lines 44-60). -/
def initVizState : VizState :=
  { mode := 1, paused := false, hue := 0, beat_history := [],
    beat_detected := false, beat_cooldown := 0, freq_smooth := [],
    particles := [] }

/-- The event handler body (lines 282-291): `quit` leaves core state alone
(it clears the loop flag), SPACE toggles `paused`, a mode key sets `mode` and
clears the particle list — unconditionally, even when the selected mode is the
current one. -/
def processEvent (s : VizState) (e : Event) : VizState :=
  match e with
  | Event.quit => s
  | Event.togglePause => { s with paused := !s.paused }
  | Event.selectMode k => { s with mode := k.val + 1, particles := [] }

/-- The particle spawn pass of `draw_mode_5_particles` (lines 239-253): when
the beat flag is set, one particle per 32-band entry with magnitude `> 5`,
positioned at the canvas center `(WIDTH//2, HEIGHT//2) = (800, 450)` with life
`60`, velocity `(cos θ, sin θ) * magnitude * 0.5` for `θ = i/32 * 2π`, and hue
`(hue + i/32) mod 1`. -/
noncomputable def mode5Spawn (fft_data : List ℝ) (beat : Bool) (hue : ℝ) :
    List Particle :=
  if beat then
    (get_frequency_bands fft_data 32).enum.filterMap (fun p =>
      if 5 < p.2 then
        some { x := 800, y := 450,
               vx := Real.cos ((p.1 : ℝ) / 32 * (2 * Real.pi)) * (p.2 * 0.5),
               vy := Real.sin ((p.1 : ℝ) / 32 * (2 * Real.pi)) * (p.2 * 0.5),
               life := 60, hue := Int.fract (hue + (p.1 : ℝ) / 32) }
      else none)
  else []

/-- The full particle effect of one `draw_mode_5_particles` call: spawn, then
run the update pass over old and new particles together (the newly spawned
particles are integrated in the same call). -/
noncomputable def mode5Particles (ps : List Particle) (fft_data : List ℝ)
    (beat : Bool) (hue : ℝ) : List Particle :=
  ParticleSystem.update (ps ++ mode5Spawn fft_data beat hue)

/-- One iteration of the `while running` loop (lines 279-326), as a function of
the pending events and the pulled audio frame.  Events are processed first,
unconditionally (lines 281-291).  If, after that, the visualizer is not
paused: `analyze_audio` appends the compressed spectrum to `freq_smooth` and
returns the element-wise mean (lines 88-91), `detect_beat` updates the beat
state, the hue advances by `0.002 mod 1.0`, and mode 5's draw mutates the
particle list (modes 1-4 only draw).  While paused, only the static overlay
is drawn (lines 319-323).  Drawing itself targets the external screen and is
not part of core state. -/
noncomputable def tick (s : VizState) (events : List Event) (frame : List ℤ) :
    VizState :=
  let s1 := events.foldl processEvent s
  if s1.paused then s1
  else
    let fs' := pushMax 3 s1.freq_smooth (compressedSpectrum frame)
    let fft := meanSpectra fs'
    let r := detect_beat ⟨s1.beat_history, s1.beat_cooldown⟩ fft
    let hue' := Int.fract (s1.hue + 0.002)
    { s1 with
      freq_smooth := fs',
      beat_history := r.2.history,
      beat_cooldown := r.2.cooldown,
      beat_detected := r.1,
      hue := hue',
      particles :=
        if s1.mode = 5 then mode5Particles s1.particles fft r.1 hue'
        else s1.particles }

/-- A paused state holding one live particle: exercises event handling during
a paused tick. -/
def pausedStateWithParticle : VizState :=
  { mode := 1, paused := true, hue := 0, beat_history := [],
    beat_detected := false, beat_cooldown := 0, freq_smooth := [],
    particles := [⟨0, 0, 0, 0, 60, 0⟩] }

/-! ## Theorems -/

/-- Stepping `detect_beat` never drives a non-negative cooldown negative. -/
theorem detect_beat_cooldown_step {α : Type} [LinearOrderedField α]
    (st : BeatState α) (fft : List α) (h : 0 ≤ st.cooldown) :
    0 ≤ ((detect_beat st fft).2).cooldown := by
  by_cases hc : 0 < st.cooldown
  · simp only [detect_beat, if_pos hc]
    omega
  · simp only [detect_beat, if_neg hc]
    split <;> simp_all

/-- `runState` preserves non-negativity of the cooldown. -/
theorem runState_cooldown_nonneg (spectra : List (List ℚ)) :
    ∀ st : BeatState ℚ, 0 ≤ st.cooldown → 0 ≤ (runState st spectra).cooldown := by
  induction spectra with
  | nil => intro st h; exact h
  | cons f fs ih =>
    intro st h
    exact ih (detect_beat st f).2 (detect_beat_cooldown_step st f h)

/-- C9: starting from the initial state (cooldown 0), after every finite
sequence of `detect_beat` calls with arbitrary spectra, the cooldown counter is
never negative, and each further call either sets it to 10, decrements a
strictly positive value by 1, or leaves it at 0. -/
theorem beat_cooldown_nonneg (spectra : List (List ℚ)) (fft : List ℚ) :
    0 ≤ (runState (initBeatState ℚ) spectra).cooldown ∧
    ((detect_beat (runState (initBeatState ℚ) spectra) fft).2.cooldown = 10 ∨
     (0 < (runState (initBeatState ℚ) spectra).cooldown ∧
      (detect_beat (runState (initBeatState ℚ) spectra) fft).2.cooldown =
        (runState (initBeatState ℚ) spectra).cooldown - 1) ∨
     ((runState (initBeatState ℚ) spectra).cooldown = 0 ∧
      (detect_beat (runState (initBeatState ℚ) spectra) fft).2.cooldown = 0)) := by
  have h0 : 0 ≤ (runState (initBeatState ℚ) spectra).cooldown :=
    runState_cooldown_nonneg spectra (initBeatState ℚ) (by simp [initBeatState])
  refine ⟨h0, ?_⟩
  by_cases hc : 0 < (runState (initBeatState ℚ) spectra).cooldown
  · exact Or.inr (Or.inl ⟨hc, by simp only [detect_beat, if_pos hc]⟩)
  · have hz : (runState (initBeatState ℚ) spectra).cooldown = 0 := by omega
    simp only [detect_beat, if_neg hc]
    split
    · exact Or.inl rfl
    · exact Or.inr (Or.inr ⟨hz, hz⟩)

/-- C1 (counterexample): with zero initial cooldown, constant bass energy 100
on ticks 1-20, a spike of 200 on tick 21, energy 100 on ticks 22-30 and a huge
spike of 1000000 on tick 31, `detect_beat` still returns false on tick 31: the
cooldown of 10 set on tick 21 suppresses ticks 22 through 31, so no spike on
tick 31 can return true. -/
theorem beat_run_tick31_false :
    runDetect (initBeatState ℚ)
      (List.replicate 20 (bassSpec 100) ++ [bassSpec 200] ++
       List.replicate 9 (bassSpec 100) ++ [bassSpec 1000000]) =
    List.replicate 20 false ++ [true] ++ List.replicate 10 false := by
  norm_num [runDetect, detect_beat, pushMax, npMean, bassSpec, initBeatState,
    List.replicate]

/-- C1 (amended): for the beat detector started with zero cooldown and fed
constant bass energy 100 on ticks 1-20 and a spike of 200 on tick 21,
`detect_beat` returns false on ticks 1-20, true on tick 21, false on ticks
22-31 (the cooldown of 10 suppresses those ten ticks), and on tick 32 the
cooldown has expired so a sufficiently large spike on tick 32 returns true
again. -/
theorem beat_run_cooldown_window :
    runDetect (initBeatState ℚ)
      (List.replicate 20 (bassSpec 100) ++ [bassSpec 200] ++
       List.replicate 9 (bassSpec 100) ++ [bassSpec 1000000] ++
       [bassSpec 1000000]) =
    List.replicate 20 false ++ [true] ++ List.replicate 10 false ++ [true] := by
  norm_num [runDetect, detect_beat, pushMax, npMean, bassSpec, initBeatState,
    List.replicate]

/-- C3: every `selectMode` input event, including one selecting the
already-active mode, leaves the particle set empty immediately after the event
is processed, whatever the prior particle set was. -/
theorem select_mode_clears_particles (s : VizState) (k : Fin 5) :
    (processEvent s (Event.selectMode k)).particles = [] := rfl

/-- Event processing never touches the analysis fields (smoothing history,
beat state, hue). -/
theorem processEvent_analysis_fields (s : VizState) (e : Event) :
    (processEvent s e).freq_smooth = s.freq_smooth ∧
    (processEvent s e).beat_history = s.beat_history ∧
    (processEvent s e).beat_cooldown = s.beat_cooldown ∧
    (processEvent s e).beat_detected = s.beat_detected ∧
    (processEvent s e).hue = s.hue := by
  cases e <;> simp [processEvent]

/-- Events other than `togglePause` leave the paused flag alone. -/
theorem processEvent_paused (s : VizState) (e : Event)
    (h : e ≠ Event.togglePause) : (processEvent s e).paused = s.paused := by
  cases e <;> simp_all [processEvent]

/-- Folding the event handler over a tick's events never touches the analysis
fields. -/
theorem foldl_processEvent_analysis (evs : List Event) :
    ∀ s : VizState,
    (evs.foldl processEvent s).freq_smooth = s.freq_smooth ∧
    (evs.foldl processEvent s).beat_history = s.beat_history ∧
    (evs.foldl processEvent s).beat_cooldown = s.beat_cooldown ∧
    (evs.foldl processEvent s).beat_detected = s.beat_detected ∧
    (evs.foldl processEvent s).hue = s.hue := by
  induction evs with
  | nil => intro s; exact ⟨rfl, rfl, rfl, rfl, rfl⟩
  | cons e es ih =>
    intro s
    have h1 := processEvent_analysis_fields s e
    have h2 := ih (processEvent s e)
    simp only [List.foldl_cons]
    exact ⟨h2.1.trans h1.1, h2.2.1.trans h1.2.1, h2.2.2.1.trans h1.2.2.1,
      h2.2.2.2.1.trans h1.2.2.2.1, h2.2.2.2.2.trans h1.2.2.2.2⟩

/-- Folding events containing no `togglePause` preserves the paused flag. -/
theorem foldl_processEvent_paused (evs : List Event)
    (h : Event.togglePause ∉ evs) :
    ∀ s : VizState, (evs.foldl processEvent s).paused = s.paused := by
  induction evs with
  | nil => intro s; rfl
  | cons e es ih =>
    intro s
    have he : e ≠ Event.togglePause := fun hc => h (hc ▸ List.mem_cons_self e es)
    have hes : Event.togglePause ∉ es := fun hc => h (List.mem_cons_of_mem e hc)
    simp only [List.foldl_cons]
    exact (ih hes (processEvent s e)).trans (processEvent_paused s e he)

/-- C2 (counterexample): a tick executed while the paused flag is set does NOT
always leave the core state unchanged: if the tick's events contain a
`selectMode`, event handling (which runs before the pause check) changes the
current mode and clears a non-empty particle set. -/
theorem paused_tick_mode_select_mutates :
    (tick pausedStateWithParticle [Event.selectMode 1] []).particles = [] ∧
    (tick pausedStateWithParticle [Event.selectMode 1] []).mode = 2 ∧
    pausedStateWithParticle.particles ≠ [] := by
  refine ⟨rfl, rfl, ?_⟩
  simp [pausedStateWithParticle]

/-- C2 (amended): for every tick executed while the paused flag is set and
whose events contain no `togglePause`, no analysis occurs: the spectrum
smoothing history, beat history, cooldown, beat flag and global hue are
unchanged and the visualizer stays paused; input events may still change the
mode and the particle set.  A paused tick with no input events at all changes
nothing, so core state is preserved, not reset, across a pause followed by a
resume. -/
theorem paused_tick_preserves_core_state (s : VizState) (evs : List Event)
    (frame : List ℤ) (hp : s.paused = true)
    (ht : Event.togglePause ∉ evs) :
    (tick s evs frame).freq_smooth = s.freq_smooth ∧
    (tick s evs frame).beat_history = s.beat_history ∧
    (tick s evs frame).beat_cooldown = s.beat_cooldown ∧
    (tick s evs frame).beat_detected = s.beat_detected ∧
    (tick s evs frame).hue = s.hue ∧
    (tick s evs frame).paused = true ∧
    tick s [] frame = s := by
  have hp1 : (evs.foldl processEvent s).paused = true :=
    (foldl_processEvent_paused evs ht s).trans hp
  have ha := foldl_processEvent_analysis evs s
  have htick : tick s evs frame = evs.foldl processEvent s := by
    simp only [tick, hp1, if_true]
  rw [htick]
  refine ⟨ha.1, ha.2.1, ha.2.2.1, ha.2.2.2.1, ha.2.2.2.2, hp1, ?_⟩
  simp only [tick, List.foldl_nil, hp, if_true]

/-- C2 (witness): the amended theorem applied to the concrete paused state with
one pending `selectMode` event. -/
theorem paused_tick_preserves_core_state_witness :
    pausedStateWithParticle.paused = true ∧
    Event.togglePause ∉ [Event.selectMode 1] ∧
    ((tick pausedStateWithParticle [Event.selectMode 1] []).freq_smooth =
        pausedStateWithParticle.freq_smooth ∧
      (tick pausedStateWithParticle [Event.selectMode 1] []).beat_history =
        pausedStateWithParticle.beat_history ∧
      (tick pausedStateWithParticle [Event.selectMode 1] []).beat_cooldown =
        pausedStateWithParticle.beat_cooldown ∧
      (tick pausedStateWithParticle [Event.selectMode 1] []).beat_detected =
        pausedStateWithParticle.beat_detected ∧
      (tick pausedStateWithParticle [Event.selectMode 1] []).hue =
        pausedStateWithParticle.hue ∧
      (tick pausedStateWithParticle [Event.selectMode 1] []).paused = true ∧
      tick pausedStateWithParticle [] [] = pausedStateWithParticle) :=
  ⟨rfl, by decide,
    paused_tick_preserves_core_state pausedStateWithParticle
      [Event.selectMode 1] [] rfl (by decide)⟩

/-- Iterating the particle physics step drops the life by the number of
steps. -/
theorem stepP_iterate_life (k : ℕ) (p : Particle) :
    (ParticleSystem.stepP^[k] p).life = p.life - k := by
  induction k generalizing p with
  | zero => simp
  | succ n ih =>
    rw [Function.iterate_succ_apply, ih]
    simp only [ParticleSystem.stepP]
    push_cast
    omega

/-- A particle whose life exceeds `k` survives `k` update passes, in stepped
form. -/
theorem mem_update_iterate (k : ℕ) : ∀ (ps : List Particle) (p : Particle),
    p ∈ ps → (k : ℤ) < p.life →
    ParticleSystem.stepP^[k] p ∈ ParticleSystem.update^[k] ps := by
  induction k with
  | zero => intro ps p h _; simpa using h
  | succ n ih =>
    intro ps p hmem hlife
    rw [Function.iterate_succ_apply, Function.iterate_succ_apply]
    apply ih
    · refine List.mem_filter.mpr ⟨List.mem_map_of_mem _ hmem, ?_⟩
      simp only [ParticleSystem.stepP, decide_eq_true_eq]
      push_cast at hlife
      omega
    · simp only [ParticleSystem.stepP]
      push_cast at hlife ⊢
      omega

/-- If every particle's life is at most `n + 1`, then `n + 1` update passes
empty the particle set. -/
theorem update_iterate_all_dead (n : ℕ) : ∀ qs : List Particle,
    (∀ q ∈ qs, q.life ≤ (n : ℤ) + 1) →
    ParticleSystem.update^[n + 1] qs = [] := by
  induction n with
  | zero =>
    intro qs h
    rw [Function.iterate_one, ParticleSystem.update]
    refine List.filter_eq_nil_iff.mpr ?_
    intro a ha
    rcases List.mem_map.mp ha with ⟨q, hq, rfl⟩
    have := h q hq
    simp only [ParticleSystem.stepP, decide_eq_true_eq, not_lt]
    omega
  | succ m ih =>
    intro qs h
    rw [Function.iterate_succ_apply]
    apply ih
    intro r hr
    rcases List.mem_filter.mp hr with ⟨hr1, _⟩
    rcases List.mem_map.mp hr1 with ⟨q, hq, rfl⟩
    have := h q hq
    simp only [ParticleSystem.stepP]
    push_cast at this ⊢
    omega

/-- C4: in a particle set whose lives never exceed the spawn value 60 (every
particle is spawned at 60 and only decays), a particle with life 60 is still
present, in stepped form, after 59 update passes; the 60th pass empties the
set (so the particle is removed by then); and each pass strictly decreases
every particle's life by exactly 1 until removal. -/
theorem particle_life_sixty_lifecycle (ps : List Particle) (p : Particle)
    (hmem : p ∈ ps) (hlife : p.life = 60)
    (hall : ∀ q ∈ ps, q.life ≤ 60) :
    ParticleSystem.stepP^[59] p ∈ ParticleSystem.update^[59] ps ∧
    ParticleSystem.update^[60] ps = [] ∧
    (∀ q : Particle, (ParticleSystem.stepP q).life = q.life - 1) := by
  refine ⟨?_, ?_, fun q => rfl⟩
  · exact mem_update_iterate 59 ps p hmem (by rw [hlife]; norm_num)
  · exact update_iterate_all_dead 59 ps (by intro q hq; have := hall q hq; omega)

/-- C4 (witness): the lifecycle theorem applied to a singleton particle set
holding one particle freshly spawned with life 60. -/
theorem particle_life_sixty_lifecycle_witness :
    (⟨0, 0, 0, 0, 60, 0⟩ : Particle) ∈ [(⟨0, 0, 0, 0, 60, 0⟩ : Particle)] ∧
    (⟨0, 0, 0, 0, 60, 0⟩ : Particle).life = 60 ∧
    (∀ q ∈ [(⟨0, 0, 0, 0, 60, 0⟩ : Particle)], q.life ≤ 60) ∧
    (ParticleSystem.stepP^[59] (⟨0, 0, 0, 0, 60, 0⟩ : Particle) ∈
        ParticleSystem.update^[59] [(⟨0, 0, 0, 0, 60, 0⟩ : Particle)] ∧
      ParticleSystem.update^[60] [(⟨0, 0, 0, 0, 60, 0⟩ : Particle)] = [] ∧
      (∀ q : Particle, (ParticleSystem.stepP q).life = q.life - 1)) := by
  have h1 : (⟨0, 0, 0, 0, 60, 0⟩ : Particle) ∈
      [(⟨0, 0, 0, 0, 60, 0⟩ : Particle)] := List.mem_singleton.mpr rfl
  have h3 : ∀ q ∈ [(⟨0, 0, 0, 0, 60, 0⟩ : Particle)], q.life ≤ 60 := by
    intro q hq
    rw [List.mem_singleton] at hq
    subst hq
    norm_num
  exact ⟨h1, rfl, h3, particle_life_sixty_lifecycle _ _ h1 rfl h3⟩

/-- Within bounds, each band's slice has exactly `band_size` elements. -/
theorem band_slice_length (series : List ℚ) (n i : ℕ) (h1 : 1 ≤ n)
    (h2 : n ≤ series.length) (hi : i < n) :
    ((series.drop (i * (series.length / n))).take (series.length / n)).length =
      series.length / n := by
  have hmul : (i + 1) * (series.length / n) ≤ series.length := by
    calc (i + 1) * (series.length / n) ≤ n * (series.length / n) :=
          Nat.mul_le_mul_right _ (by omega)
      _ = series.length / n * n := Nat.mul_comm _ _
      _ ≤ series.length := Nat.div_mul_le_self _ _
  rw [List.length_take, List.length_drop]
  have : (i + 1) * (series.length / n) = i * (series.length / n) +
      series.length / n := by ring
  omega

/-- C5: for every input series and every band count `n` with
`1 ≤ n ≤ len(series)`, `get_frequency_bands` returns exactly `n` values; value
`i` is the arithmetic mean (sum over `sliceWidth`) of the slice
`[i*sliceWidth, (i+1)*sliceWidth)` with `sliceWidth = len(series) / n`; and the
trailing `len(series) - n*sliceWidth` elements contribute to no band: two
same-length series agreeing on the first `n*sliceWidth` elements aggregate
identically.  The function reads no other state. -/
theorem get_frequency_bands_spec (series : List ℚ) (n : ℕ)
    (h1 : 1 ≤ n) (h2 : n ≤ series.length) :
    (get_frequency_bands series n).length = n ∧
    (∀ i, i < n →
      (get_frequency_bands series n).getD i 0 =
        ((series.drop (i * (series.length / n))).take (series.length / n)).sum /
          ((series.length / n : ℕ) : ℚ)) ∧
    (∀ t : List ℚ, t.length = series.length →
      series.take (n * (series.length / n)) = t.take (n * (t.length / n)) →
      get_frequency_bands series n = get_frequency_bands t n) := by
  refine ⟨by simp [get_frequency_bands], ?_, ?_⟩
  · intro i hi
    have hlt : i < (get_frequency_bands series n).length := by
      simpa [get_frequency_bands] using hi
    rw [List.getD_eq_getElem _ _ hlt]
    simp only [get_frequency_bands, List.getElem_map, List.getElem_range]
    rw [npMean, band_slice_length series n i h1 h2 hi]
  · intro t hlen htake
    rw [hlen] at htake
    have key : ∀ l : List ℚ, ∀ i < n,
        ((l.take (n * (series.length / n))).drop (i * (series.length / n))).take
          (series.length / n) =
        (l.drop (i * (series.length / n))).take (series.length / n) := by
      intro l i hi
      rw [List.drop_take, List.take_take, min_eq_left]
      have : (i + 1) * (series.length / n) = i * (series.length / n) +
          series.length / n := by ring
      have hi1 : (i + 1) * (series.length / n) ≤ n * (series.length / n) :=
        Nat.mul_le_mul_right _ (by omega)
      omega
    simp only [get_frequency_bands, hlen]
    refine List.map_congr_left ?_
    intro i hi
    rw [List.mem_range] at hi
    have hslices : (series.drop (i * (series.length / n))).take
        (series.length / n) =
        (t.drop (i * (series.length / n))).take (series.length / n) := by
      rw [← key series i hi, htake, key t i hi]
    rw [hslices]

/-- C5 (witness): the aggregation theorem applied to a five-element series and
two bands (slice width 2, trailing element dropped). -/
theorem get_frequency_bands_spec_witness :
    1 ≤ 2 ∧ 2 ≤ ([1, 2, 3, 4, 5] : List ℚ).length ∧
    (get_frequency_bands ([1, 2, 3, 4, 5] : List ℚ) 2).length = 2 :=
  ⟨by decide, by decide,
    (get_frequency_bands_spec [1, 2, 3, 4, 5] 2 (by decide) (by decide)).1⟩

/-- C6 (counterexample): for a raw frame of length `N = 2048` and canvas width
1600, the mode-3 builder does NOT emit a canvas-width polyline: the step
`floor(2048/1600) = 1` keeps every sample, so 2048 points are emitted. -/
theorem mode3_waveform_not_canvas_width :
    (draw_mode_3_points (List.replicate 2048 0) 1600 900).length ≠ 1600 := by
  simp only [draw_mode_3_points, List.length_replicate]
  norm_num

/-- C6 (amended): for every raw frame of length `N = 2048` and canvas width
1600, the mode-3 builder picks every `floor(N/width) = 1`-st sample, so the
emitted polyline has 2048 points (one per sample, not canvas-width many) whose
x coordinates are the sample indices, lying in `[0, 2048)` and thus exceeding
the canvas width for indices `1600..2047`. -/
theorem mode3_waveform_point_count (audio : List ℤ)
    (h : audio.length = 2048) :
    (draw_mode_3_points audio 1600 900).length = 2048 ∧
    (∀ q ∈ draw_mode_3_points audio 1600 900, q.1 < 2048) ∧
    (∀ j, j < 2048 →
      ((draw_mode_3_points audio 1600 900).getD j (0, 0)).1 = j) ∧
    (∀ j, 1600 ≤ j → j < 2048 →
      ∃ q ∈ draw_mode_3_points audio 1600 900, q.1 = j ∧ 1600 ≤ q.1) := by
  have hpts : draw_mode_3_points audio 1600 900 =
      (List.range 2048).map (fun j =>
        (j, (450 : ℤ) + pyInt ((audio.getD j 0 : ℚ) / 32768 * 300))) := by
    simp only [draw_mode_3_points, h]
    norm_num
  have hlen : (draw_mode_3_points audio 1600 900).length = 2048 := by
    rw [hpts]
    simp
  refine ⟨hlen, ?_, ?_, ?_⟩
  · intro q hq
    rw [hpts] at hq
    rcases List.mem_map.mp hq with ⟨j, hj, rfl⟩
    exact List.mem_range.mp hj
  · intro j hj
    rw [hpts]
    have hjl : j < ((List.range 2048).map (fun j =>
        (j, (450 : ℤ) + pyInt ((audio.getD j 0 : ℚ) / 32768 * 300)))).length := by
      simpa using hj
    rw [List.getD_eq_getElem _ _ hjl]
    simp
  · intro j h16 hj
    refine ⟨(j, (450 : ℤ) + pyInt ((audio.getD j 0 : ℚ) / 32768 * 300)),
      ?_, rfl, h16⟩
    rw [hpts]
    exact List.mem_map.mpr ⟨j, List.mem_range.mpr hj, rfl⟩

/-- C6 (witness): the amended waveform theorem applied to the all-zero frame of
length 2048. -/
theorem mode3_waveform_point_count_witness :
    (List.replicate 2048 (0 : ℤ)).length = 2048 ∧
    ((draw_mode_3_points (List.replicate 2048 0) 1600 900).length = 2048 ∧
      (∀ q ∈ draw_mode_3_points (List.replicate 2048 0) 1600 900,
        q.1 < 2048) ∧
      (∀ j, j < 2048 →
        ((draw_mode_3_points (List.replicate 2048 0) 1600 900).getD j
          (0, 0)).1 = j) ∧
      (∀ j, 1600 ≤ j → j < 2048 →
        ∃ q ∈ draw_mode_3_points (List.replicate 2048 0) 1600 900,
          q.1 = j ∧ 1600 ≤ q.1)) :=
  ⟨List.length_replicate 2048 0,
    mode3_waveform_point_count (List.replicate 2048 0)
      (List.length_replicate 2048 0)⟩

/-- The pre-smoothing spectrum of an identically-zero frame vanishes at every
index. -/
theorem preSmoothSpectrum_of_zero (f : ℕ → ℝ) (hf : ∀ j, f j = 0) (k : ℕ) :
    preSmoothSpectrum f k = 0 := by
  have hdft : dft (fun j => ((f j * hamming 2048 j : ℝ) : ℂ)) 2048 k = 0 := by
    rw [dft]
    refine Finset.sum_eq_zero ?_
    intro j _
    rw [hf j]
    simp
  rw [preSmoothSpectrum, hdft]
  simp [logCompress]

/-- C7: for an all-zero input frame every value of the compressed spectrum
computed before temporal smoothing equals 0, and the log-compressed value
`log10(magnitude + 1) * 20` is non-negative (hence a well-defined, finite
real) for every non-negative magnitude. -/
theorem zero_frame_spectrum_and_log_nonneg :
    (∀ k, preSmoothSpectrum (fun _ => 0) k = 0) ∧
    (∀ x ∈ compressedSpectrum (List.replicate 2048 0), x = 0) ∧
    (∀ m : ℝ, 0 ≤ m → 0 ≤ logCompress m) := by
  refine ⟨fun k => preSmoothSpectrum_of_zero _ (fun _ => rfl) k, ?_, ?_⟩
  · intro x hx
    rcases List.mem_map.mp hx with ⟨k, _, rfl⟩
    refine preSmoothSpectrum_of_zero _ ?_ k
    intro j
    have hrep : ∀ (n j : ℕ), (List.replicate n (0 : ℤ)).getD j 0 = 0 := by
      intro n j
      simp [List.getD]
    rw [hrep]
    norm_num
  · intro m hm
    have h1 : (0 : ℝ) ≤ Real.logb 10 (m + 1) :=
      Real.logb_nonneg (by norm_num) (by linarith)
    rw [logCompress]
    positivity

/-- C7 (witness): the analyzer theorem evaluated at spectrum index 0 of the
zero frame and at magnitude 0. -/
theorem zero_frame_spectrum_and_log_nonneg_witness :
    preSmoothSpectrum (fun _ => 0) 0 = 0 ∧
    preSmoothSpectrum
      (fun j => (((List.replicate 2048 (0 : ℤ)).getD j 0 : ℤ) : ℝ)) 5 = 0 ∧
    (0 : ℝ) ≤ 0 ∧ 0 ≤ logCompress 0 :=
  ⟨zero_frame_spectrum_and_log_nonneg.1 0,
    zero_frame_spectrum_and_log_nonneg.2.1 _
      (List.mem_map.mpr ⟨5, List.mem_range.mpr (by norm_num), rfl⟩),
    le_refl 0,
    zero_frame_spectrum_and_log_nonneg.2.2 0 (le_refl 0)⟩

/-- C8: when the analyzer smooths with fewer than `K = 3` spectra in the
history (the first and second calls), the result is the element-wise mean over
only the spectra seen so far: the first call returns its spectrum unchanged,
the second returns the element-wise two-point mean — never a mean over three
slots with missing entries treated as zero. -/
theorem smoothing_short_history (s1 s2 : List ℚ) :
    meanSpectra (pushMax 3 ([] : List (List ℚ)) s1) = s1 ∧
    (s2.length = s1.length →
      meanSpectra (pushMax 3 [s1] s2) =
        List.zipWith (fun a b => (a + b) / 2) s1 s2) := by
  constructor
  · apply List.ext_getElem
    · simp [meanSpectra, pushMax]
    · intro i h1 h2
      simp [meanSpectra, pushMax, List.getElem?_eq_getElem h2]
  · intro hlen
    apply List.ext_getElem
    · simp [meanSpectra, pushMax, hlen]
    · intro i h1 h2
      rw [List.length_zipWith, hlen, min_self] at h2
      have h2b : i < s2.length := by rw [hlen]; exact h2
      simp [meanSpectra, pushMax, List.getElem_zipWith,
        List.getElem?_eq_getElem h2, List.getElem?_eq_getElem h2b]

/-- C8 (witness): the smoothing theorem on two concrete two-entry spectra. -/
theorem smoothing_short_history_witness :
    ([3, 5] : List ℚ).length = ([1, 2] : List ℚ).length ∧
    (meanSpectra (pushMax 3 ([] : List (List ℚ)) [1, 2]) = [1, 2] ∧
      meanSpectra (pushMax 3 [([1, 2] : List ℚ)] [3, 5]) =
        List.zipWith (fun a b => (a + b) / 2) [1, 2] [3, 5]) :=
  ⟨rfl, (smoothing_short_history [1, 2] [3, 5]).1,
    (smoothing_short_history [1, 2] [3, 5]).2 rfl⟩

/-- Every particle produced by the mode-5 spawn pass sits at the canvas center
`(800, 450)` with life 60. -/
theorem mem_mode5Spawn (fft : List ℝ) (beat : Bool) (hue : ℝ) (q : Particle)
    (hq : q ∈ mode5Spawn fft beat hue) :
    q.x = 800 ∧ q.y = 450 ∧ q.life = 60 := by
  cases beat with
  | false => simp [mode5Spawn] at hq
  | true =>
    simp only [mode5Spawn, if_true] at hq
    rcases List.mem_filterMap.mp hq with ⟨p, _, hfp⟩
    by_cases h5 : 5 < p.2
    · rw [if_pos h5] at hfp
      cases hfp
      exact ⟨rfl, rfl, rfl⟩
    · rw [if_neg h5] at hfp
      cases hfp

/-- A `filterMap` whose function is `if P a then some (g a) else none` keeps
exactly the elements satisfying `P`. -/
theorem length_filterMap_ifSome {β γ : Type} (P : β → Prop) [DecidablePred P]
    (g : β → γ) (l : List β) :
    (l.filterMap (fun a => if P a then some (g a) else none)).length =
    (l.filter (fun a => decide (P a))).length := by
  induction l with
  | nil => rfl
  | cons a t ih =>
    by_cases h : P a <;>
      simp [List.filterMap_cons, List.filter_cons, h, ih]

/-- Filtering an enumeration by a predicate on the values keeps as many
elements as filtering the underlying list. -/
theorem length_filter_enumFrom (P : ℝ → Prop) [DecidablePred P] (l : List ℝ) :
    ∀ n, ((List.enumFrom n l).filter (fun p => decide (P p.2))).length =
      (l.filter (fun m => decide (P m))).length := by
  induction l with
  | nil => intro n; rfl
  | cons a t ih =>
    intro n
    by_cases h : P a <;>
      simp [List.enumFrom_cons, List.filter_cons, h, ih]

/-- C10: the mode-5 particle builder spawns at most 32 new particles per call:
none when the beat flag is clear, and exactly one per 32-band entry whose
aggregated magnitude exceeds 5 when it is set; every spawned particle has
position equal to the canvas center `(800, 450)` and life 60; and a full
builder call grows the particle set by at most 32. -/
theorem mode5_spawn_bounds (ps : List Particle) (fft : List ℝ) (beat : Bool)
    (hue : ℝ) :
    (mode5Spawn fft beat hue).length ≤ 32 ∧
    mode5Spawn fft false hue = [] ∧
    (mode5Spawn fft true hue).length =
      ((get_frequency_bands fft 32).filter (fun m => decide (5 < m))).length ∧
    mode5Spawn fft beat hue =
      (mode5Spawn fft beat hue).map
        (fun q => { q with x := 800, y := 450, life := 60 }) ∧
    (mode5Particles ps fft beat hue).length ≤ ps.length + 32 := by
  have hlen : ∀ b : Bool, (mode5Spawn fft b hue).length ≤ 32 := by
    intro b
    cases b with
    | false => simp [mode5Spawn]
    | true =>
      simp only [mode5Spawn, if_true]
      refine le_trans (List.length_filterMap_le _ _) ?_
      simp [List.enum_length, get_frequency_bands]
  refine ⟨hlen beat, rfl, ?_, ?_, ?_⟩
  · simp only [mode5Spawn, if_true]
    rw [show (get_frequency_bands fft 32).enum =
        List.enumFrom 0 (get_frequency_bands fft 32) from rfl]
    exact (length_filterMap_ifSome (fun p : ℕ × ℝ => 5 < p.2) _ _).trans
      (length_filter_enumFrom (fun m => 5 < m) _ 0)
  · refine ((List.map_congr_left ?_).trans (List.map_id _)).symm
    intro q hq
    obtain ⟨hx, hy, hl⟩ := mem_mode5Spawn fft beat hue q hq
    cases q
    simp_all
  · calc (mode5Particles ps fft beat hue).length
        ≤ (ps ++ mode5Spawn fft beat hue).length := by
          rw [mode5Particles, ParticleSystem.update]
          exact le_trans (List.length_filter_le _ _)
            (le_of_eq (List.length_map _ _))
      _ = ps.length + (mode5Spawn fft beat hue).length :=
          List.length_append _ _
      _ ≤ ps.length + 32 := by have := hlen beat; omega
